import Mathlib

set_option maxHeartbeats 1000000
set_option maxRecDepth 20000

/-!
Verification development for the roadmap tool (src/parser.ts, src/renderer.ts
and the draw.io exporter).  The TypeScript core is shallowly embedded:

* JS numbers are modelled as exact rationals extended with the two signed
  infinities and NaN (`JNum`).  IEEE-754 rounding, overflow and negative zero
  are not modelled; all finite arithmetic is exact.  Division by zero,
  infinity propagation and NaN propagation follow the JS rules.  The exactness
  of finite arithmetic is a real divergence from doubles — in JS
  `x + 1 === x` already holds at finite `x` of magnitude `2^53` — so no
  theorem below leans on exact finite addition: the row-packing results use
  only comparisons, and the resolver-clamp finding (C1) is established at an
  infinite start, where the model and the program agree.
* JS strings are modelled as `String` / `List Char`; the handful of string
  operations the source uses (`split`, `trim`, `startsWith`, `slice`,
  `toLowerCase`, global literal `replace`) are re-implemented structurally so
  that every concrete run reduces inside the kernel.  `toLowerCase` is ASCII
  (the inputs of interest are ASCII).
* `Array.prototype.sort` is stable (ES2019).  A stable sort under a total
  preorder is unique, so it is modelled by Mathlib's stable
  `List.insertionSort`, which places an earlier element before a later equal
  one exactly as the JS sort does.
* `new Function("return " + sanitized)()` is modelled by a lexer/parser for
  the JS expression grammar restricted to the sanitized alphabet
  (digits and `+ - * / ( ) .`): numeric literals with at most one dot,
  `**` exponentiation (integer exponents exact; a non-integer exponent on a
  positive base is irrational in general and is mapped to NaN — a documented
  idealization), `//` line comments, `/* */` block comments, and the `++`/`--`
  punctuators which are always SyntaxErrors on literal operands.  A thrown
  SyntaxError and a non-number result (e.g. an all-comment body returning
  undefined) are both modelled as `Except.error`, because the source's
  `typeof result === "number"` guard sends both to `0`.
-/

/-- JS number: exact rational, +Infinity, -Infinity or NaN. -/
inductive JNum where
  | fin (q : ℚ)
  | posInf
  | negInf
  | nan
deriving DecidableEq

def JNum.isNan : JNum → Bool
  | .nan => true
  | _ => false

def JNum.isFinite : JNum → Bool
  | .fin _ => true
  | _ => false

/-- JS unary minus (negative zero is not modelled). -/
def jneg : JNum → JNum
  | .fin q => .fin (-q)
  | .posInf => .negInf
  | .negInf => .posInf
  | .nan => .nan

/-- JS `+` on numbers. -/
def jadd : JNum → JNum → JNum
  | .nan, _ => .nan
  | _, .nan => .nan
  | .fin a, .fin b => .fin (a + b)
  | .fin _, .posInf => .posInf
  | .fin _, .negInf => .negInf
  | .posInf, .fin _ => .posInf
  | .posInf, .posInf => .posInf
  | .posInf, .negInf => .nan
  | .negInf, .fin _ => .negInf
  | .negInf, .negInf => .negInf
  | .negInf, .posInf => .nan

/-- JS `-` on numbers. -/
def jsub (a b : JNum) : JNum := jadd a (jneg b)

/-- JS `*` on numbers. -/
def jmul : JNum → JNum → JNum
  | .nan, _ => .nan
  | _, .nan => .nan
  | .fin a, .fin b => .fin (a * b)
  | .fin a, .posInf => if a = 0 then .nan else if 0 < a then .posInf else .negInf
  | .fin a, .negInf => if a = 0 then .nan else if 0 < a then .negInf else .posInf
  | .posInf, .fin b => if b = 0 then .nan else if 0 < b then .posInf else .negInf
  | .negInf, .fin b => if b = 0 then .nan else if 0 < b then .negInf else .posInf
  | .posInf, .posInf => .posInf
  | .posInf, .negInf => .negInf
  | .negInf, .posInf => .negInf
  | .negInf, .negInf => .posInf

/-- JS `/` on numbers (the divisor `0` is `+0`; negative zero is not modelled). -/
def jdiv : JNum → JNum → JNum
  | .nan, _ => .nan
  | _, .nan => .nan
  | .fin a, .fin b =>
    if b = 0 then (if a = 0 then .nan else if 0 < a then .posInf else .negInf)
    else .fin (a / b)
  | .fin _, .posInf => .fin 0
  | .fin _, .negInf => .fin 0
  | .posInf, .fin b => if 0 ≤ b then .posInf else .negInf
  | .negInf, .fin b => if 0 ≤ b then .negInf else .posInf
  | .posInf, .posInf => .nan
  | .posInf, .negInf => .nan
  | .negInf, .posInf => .nan
  | .negInf, .negInf => .nan

/-- JS `**` on numbers.  Integer exponents are exact.  A non-integer exponent
on a finite base other than `0` and `1` yields an irrational value in general,
which has no rational representative; the model maps that case to NaN (a
documented idealization — no claim in this development depends on `**`). -/
def jpow (a b : JNum) : JNum :=
  match b with
  | .fin e =>
    if e = 0 then .fin 1
    else
      match a with
      | .nan => .nan
      | .fin q =>
        if e.den = 1 then
          if 0 < e.num then .fin (q ^ e.num.toNat)
          else if q = 0 then .posInf
          else .fin ((q ^ (-e.num).toNat)⁻¹)
        else
          if q < 0 then .nan
          else if q = 0 then (if 0 < e then .fin 0 else .posInf)
          else if q = 1 then .fin 1
          else .nan
      | .posInf => if 0 < e then .posInf else .fin 0
      | .negInf =>
        if 0 < e then (if e.den = 1 ∧ e.num % 2 = 1 then .negInf else .posInf)
        else .fin 0
  | .posInf =>
    match a with
    | .nan => .nan
    | .fin q => if q = 1 ∨ q = -1 then .nan else if -1 < q ∧ q < 1 then .fin 0 else .posInf
    | .posInf => .posInf
    | .negInf => .posInf
  | .negInf =>
    match a with
    | .nan => .nan
    | .fin q => if q = 1 ∨ q = -1 then .nan else if -1 < q ∧ q < 1 then .posInf else .fin 0
    | .posInf => .fin 0
    | .negInf => .fin 0
  | .nan => .nan

/-- JS `<=` on numbers (false whenever either side is NaN). -/
def jle : JNum → JNum → Bool
  | .nan, _ => false
  | _, .nan => false
  | .fin a, .fin b => decide (a ≤ b)
  | .fin _, .posInf => true
  | .fin _, .negInf => false
  | .posInf, .fin _ => false
  | .posInf, .posInf => true
  | .posInf, .negInf => false
  | .negInf, _ => true

/-- JS `<` on numbers (false whenever either side is NaN). -/
def jlt : JNum → JNum → Bool
  | .nan, _ => false
  | _, .nan => false
  | .fin a, .fin b => decide (a < b)
  | .fin _, .posInf => true
  | .fin _, .negInf => false
  | .posInf, _ => false
  | .negInf, .fin _ => true
  | .negInf, .posInf => true
  | .negInf, .negInf => false

/-! ### Character-level string operations (as used by the source) -/

/-- JS whitespace (ASCII fragment of `\s`). -/
def wsChar (c : Char) : Bool := c.isWhitespace

/-- `String.prototype.trim`. -/
def trimCh (l : List Char) : List Char :=
  ((l.dropWhile wsChar).reverse.dropWhile wsChar).reverse

/-- `String.prototype.split` with a single-character separator (the source only
splits on `"\n" "|" "," ":"`). -/
def splitCh (sep : Char) : List Char → List (List Char)
  | [] => [[]]
  | c :: cs =>
    match splitCh sep cs with
    | [] => [[c]]
    | g :: gs => if c = sep then [] :: g :: gs else (c :: g) :: gs

/-- `String.prototype.startsWith`. -/
def startsWithCh : List Char → List Char → Bool
  | [], _ => true
  | _ :: _, [] => false
  | p :: ps, c :: cs => p == c && startsWithCh ps cs

/-- `String.prototype.toLowerCase` (ASCII). -/
def toLowerCh (l : List Char) : List Char := l.map Char.toLower

def squashAux : Nat → List Char → List Char
  | 0, _ => []
  | _ + 1, [] => []
  | f + 1, c :: cs =>
    if wsChar c then '_' :: squashAux f (cs.dropWhile wsChar)
    else c :: squashAux f cs

/-- `replace(/\s+/g, "_")`: every whitespace run becomes one underscore. -/
def squashWS (l : List Char) : List Char := squashAux (l.length + 1) l

def replaceAllAux (pat rep : List Char) : Nat → List Char → List Char
  | 0, l => l
  | _ + 1, [] => []
  | f + 1, c :: cs =>
    if startsWithCh pat (c :: cs) then
      rep ++ replaceAllAux pat rep f (List.drop pat.length (c :: cs))
    else c :: replaceAllAux pat rep f cs

/-- Global literal-pattern `String.prototype.replace` (the source escapes the
pattern, so the regex is literal; left-to-right, non-overlapping).  A global
empty-pattern replace matches at every position, interleaving the replacement. -/
def replaceAllCh (l pat rep : List Char) : List Char :=
  if pat = [] then rep ++ l.foldr (fun c acc => c :: (rep ++ acc)) []
  else replaceAllAux pat rep (l.length + 1) l

def digitCharOf (n : Nat) : Char := Char.ofNat (48 + n)

def natToChars : Nat → Nat → List Char
  | 0, _ => []
  | f + 1, n => if n < 10 then [digitCharOf n] else natToChars f (n / 10) ++ [digitCharOf (n % 10)]

/-- `Number.prototype.toString` for the natural indices stored in the period map. -/
def natToStr (n : Nat) : List Char := natToChars (n + 1) n

def digitsToNat (ds : List Char) : Nat := ds.foldl (fun n c => 10 * n + (c.toNat - 48)) 0

/-- Value of a decimal literal with integer part `ip` and fractional part `fp`. -/
def decValue (ip fp : List Char) : ℚ :=
  (digitsToNat ip : ℚ) + (digitsToNat fp : ℚ) / (10 : ℚ) ^ fp.length

/-- JS `parseFloat`: skip leading whitespace, optional sign, then the longest
prefix that is `Infinity` or a decimal literal with optional exponent; NaN when
no such prefix exists.  The decimal value is kept exact (no rounding). -/
def parseFloat (s : String) : JNum :=
  let cs := s.data.dropWhile wsChar
  let sgn : Bool × List Char :=
    match cs with
    | '+' :: r => (false, r)
    | '-' :: r => (true, r)
    | _ => (false, cs)
  let neg := sgn.1
  let cs1 := sgn.2
  if startsWithCh ("Infinity".data) cs1 then (if neg then .negInf else .posInf)
  else
    let ip := cs1.takeWhile Char.isDigit
    let r1 := cs1.dropWhile Char.isDigit
    let fpr : List Char × List Char :=
      match r1 with
      | '.' :: r => (r.takeWhile Char.isDigit, r.dropWhile Char.isDigit)
      | _ => ([], r1)
    let fp := fpr.1
    let r2 := fpr.2
    if ip = [] ∧ fp = [] then .nan
    else
      let base : ℚ := decValue ip fp
      let withExp : ℚ :=
        match r2 with
        | e :: r3 =>
          if e = 'e' ∨ e = 'E' then
            let esgn : Bool × List Char :=
              match r3 with
              | '+' :: r => (false, r)
              | '-' :: r => (true, r)
              | _ => (false, r3)
            let ed := esgn.2.takeWhile Char.isDigit
            if ed = [] then base
            else if esgn.1 then base / (10 : ℚ) ^ digitsToNat ed
            else base * (10 : ℚ) ^ digitsToNat ed
          else base
        | [] => base
      .fin (if neg then -withExp else withExp)

/-! ### The sanitized-expression evaluator (`new Function("return " + s)()`) -/

inductive Tok where
  | num (q : ℚ)
  | add
  | sub
  | mul
  | div
  | pow
  | lp
  | rp
deriving DecidableEq

def dropBlockComment : List Char → Option (List Char)
  | [] => none
  | '*' :: '/' :: r => some r
  | _ :: r => dropBlockComment r

/-- JS lexer over the sanitized alphabet.  Numeric literals take the longest
munch with at most one dot (`1.`, `.5` are literals; a dot that cannot join a
literal is a SyntaxError in this grammar, since member access on the following
token is impossible); `**` is one token; `++`/`--` are the update punctuators,
which are always SyntaxErrors here; `//` opens a line comment running to the end
(the sanitized string has no newlines); `/*` opens a block comment. -/
def lexTokens : Nat → List Char → Except Unit (List Tok)
  | _, [] => .ok []
  | 0, _ :: _ => .error ()
  | f + 1, c :: cs =>
    if c.isDigit then
      let ip := (c :: cs).takeWhile Char.isDigit
      let r1 := (c :: cs).dropWhile Char.isDigit
      match r1 with
      | '.' :: r2 =>
        let fp := r2.takeWhile Char.isDigit
        let r3 := r2.dropWhile Char.isDigit
        (lexTokens f r3).map (fun ts => Tok.num (decValue ip fp) :: ts)
      | _ => (lexTokens f r1).map (fun ts => Tok.num (decValue ip []) :: ts)
    else if c = '.' then
      match cs with
      | d :: _ =>
        if d.isDigit then
          let fp := cs.takeWhile Char.isDigit
          let r1 := cs.dropWhile Char.isDigit
          (lexTokens f r1).map (fun ts => Tok.num (decValue [] fp) :: ts)
        else .error ()
      | [] => .error ()
    else if c = '*' then
      match cs with
      | '*' :: r => (lexTokens f r).map (fun ts => Tok.pow :: ts)
      | _ => (lexTokens f cs).map (fun ts => Tok.mul :: ts)
    else if c = '/' then
      match cs with
      | '/' :: _ => .ok []
      | '*' :: r =>
        match dropBlockComment r with
        | some r2 => lexTokens f r2
        | none => .error ()
      | _ => (lexTokens f cs).map (fun ts => Tok.div :: ts)
    else if c = '+' then
      match cs with
      | '+' :: _ => .error ()
      | _ => (lexTokens f cs).map (fun ts => Tok.add :: ts)
    else if c = '-' then
      match cs with
      | '-' :: _ => .error ()
      | _ => (lexTokens f cs).map (fun ts => Tok.sub :: ts)
    else if c = '(' then (lexTokens f cs).map (fun ts => Tok.lp :: ts)
    else if c = ')' then (lexTokens f cs).map (fun ts => Tok.rp :: ts)
    else .error ()

/-- Nonterminal being parsed: additive expression, additive loop, multiplicative
expression, multiplicative loop, exponentiation, unary chain, primary. -/
inductive PK where
  | kAdd
  | kAddL (v : JNum)
  | kMul
  | kMulL (v : JNum)
  | kPow
  | kUna
  | kPrim

/-- Fueled recursive-descent evaluator for the JS expression grammar
(`AdditiveExpression` down to parenthesized primaries).  On the JS grammar a
unary expression may not be the left operand of `**` without parentheses, hence
the error case in `kPow`. -/
def pStep : Nat → PK → List Tok → Except Unit (JNum × List Tok)
  | 0, _, _ => .error ()
  | f + 1, k, ts =>
    match k with
    | .kAdd => do
      let vr ← pStep f .kMul ts
      pStep f (.kAddL vr.1) vr.2
    | .kAddL v =>
      match ts with
      | .add :: r => do
        let wr ← pStep f .kMul r
        pStep f (.kAddL (jadd v wr.1)) wr.2
      | .sub :: r => do
        let wr ← pStep f .kMul r
        pStep f (.kAddL (jsub v wr.1)) wr.2
      | _ => .ok (v, ts)
    | .kMul => do
      let vr ← pStep f .kPow ts
      pStep f (.kMulL vr.1) vr.2
    | .kMulL v =>
      match ts with
      | .mul :: r => do
        let wr ← pStep f .kPow r
        pStep f (.kMulL (jmul v wr.1)) wr.2
      | .div :: r => do
        let wr ← pStep f .kPow r
        pStep f (.kMulL (jdiv v wr.1)) wr.2
      | _ => .ok (v, ts)
    | .kPow =>
      match ts with
      | .add :: _ => do
        let vr ← pStep f .kUna ts
        match vr.2 with
        | .pow :: _ => .error ()
        | _ => .ok vr
      | .sub :: _ => do
        let vr ← pStep f .kUna ts
        match vr.2 with
        | .pow :: _ => .error ()
        | _ => .ok vr
      | _ => do
        let vr ← pStep f .kPrim ts
        match vr.2 with
        | .pow :: r2 => do
          let wr ← pStep f .kPow r2
          .ok (jpow vr.1 wr.1, wr.2)
        | _ => .ok vr
    | .kUna =>
      match ts with
      | .add :: r => pStep f .kUna r
      | .sub :: r => do
        let vr ← pStep f .kUna r
        .ok (jneg vr.1, vr.2)
      | _ => pStep f .kPrim ts
    | .kPrim =>
      match ts with
      | .num q :: r => .ok (.fin q, r)
      | .lp :: r => do
        let vr ← pStep f .kAdd r
        match vr.2 with
        | .rp :: r3 => .ok (vr.1, r3)
        | _ => .error ()
      | _ => .error ()

/-- Model of `new Function("return " + s)()` on a sanitized string: lex, parse
the full token list as one additive expression, require it to be consumed.
`Except.error` covers both a SyntaxError and a non-number result. -/
def jsEval (s : String) : Except Unit JNum := do
  let ts ← lexTokens (s.data.length + 1) s.data
  let vr ← pStep (16 * (ts.length + 1)) .kAdd ts
  match vr.2 with
  | [] => .ok vr.1
  | _ :: _ => .error ()

/-! ### evaluateExpression (parser.ts lines 282-320) -/

/-- Sort key for the period-substitution pass: descending name length,
ties in insertion order (the JS comparator `b[0].length - a[0].length` under a
stable sort). -/
def lenDescLe (a b : String × Nat) : Prop := b.1.length ≤ a.1.length

instance : DecidableRel lenDescLe := fun a b => Nat.decLe b.1.length a.1.length

instance : IsTotal (String × Nat) lenDescLe :=
  ⟨fun a b => (Nat.le_total b.1.length a.1.length).imp id id⟩

instance : IsTrans (String × Nat) lenDescLe :=
  ⟨fun _ _ _ h1 h2 => Nat.le_trans h2 h1⟩

/-- Substitution pass of `evaluateExpression`: lower-case the expression, then
replace every occurrence of every period key by its index, longer keys first.
The keys are already lower-case and the inserted text is digits, so the `gi`
regex flag is equivalent to a plain global literal replace. -/
def substitutePeriods (expr : String) (periodMap : List (String × Nat)) : String :=
  let sorted := List.insertionSort lenDescLe periodMap
  String.mk (sorted.foldl (fun ev p => replaceAllCh ev p.1.data (natToStr p.2)) (toLowerCh expr.data))

def allowedChar (c : Char) : Bool :=
  c.isDigit || c == '+' || c == '-' || c == '*' || c == '/' || c == '(' || c == ')' || c == '.'

/-- The sanitation `replace(/[^0-9+\-*\/().]/g, "")`. -/
def sanitize (s : String) : String := String.mk (s.data.filter allowedChar)

/-- parser.ts `evaluateExpression` (the third parameter is unused in the
source as well). -/
def evaluateExpression (expr : String) (periodMap : List (String × Nat))
    (_totalPeriods : Nat) : JNum :=
  if expr = "" then .fin 0
  else
    let simpleNum := parseFloat expr
    if simpleNum.isNan then
      let sanitized := sanitize (substitutePeriods expr periodMap)
      if sanitized = "" then .fin 0
      else
        match jsEval sanitized with
        | .error _ => .fin 0
        | .ok r => if r.isNan then .fin 0 else r
    else simpleNum

/-! ### Data model (types.ts) -/

structure TimePeriod where
  id : String
  label : String
  index : Nat
deriving DecidableEq

structure RoadmapItem where
  id : String
  title : String
  startExpression : String
  endExpression : Option String
  lengthExpression : Option String
  swimlane : String
  color : Option String
deriving DecidableEq

structure Swimlane where
  id : String
  label : String
  items : List RoadmapItem
deriving DecidableEq

structure RoadmapData where
  timePeriods : List TimePeriod
  swimlanes : List Swimlane
  title : Option String
deriving DecidableEq

structure ResolvedItem where
  id : String
  title : String
  startIndex : JNum
  endIndex : JNum
  swimlane : String
  color : String
deriving DecidableEq

structure ResolvedSwimlane where
  id : String
  label : String
  items : List ResolvedItem
deriving DecidableEq

structure ResolvedRoadmap where
  timePeriods : List TimePeriod
  swimlanes : List ResolvedSwimlane
  title : Option String
deriving DecidableEq

/-- parser.ts lines 10-26. -/
def COLORS : List String :=
  ["#4285F4", "#EA4335", "#FBBC04", "#34A853", "#FF6D01", "#46BDC6", "#7BAAF7",
   "#F07B72", "#FCD04F", "#57BB8A", "#9E69AF", "#FF8A80", "#A7FFEB", "#FFD180", "#B388FF"]

/-- JS `o || d` for an optional string (`undefined` and `""` are falsy). -/
def jsOrStr (o : Option String) (d : String) : String :=
  match o with
  | none => d
  | some s => if s = "" then d else s

/-- JS truthiness of an optional string. -/
def jsTruthy (o : Option String) : Bool :=
  match o with
  | none => false
  | some s => !(s == "")

/-! ### parseRoadmapText (parser.ts lines 42-203) -/

inductive PMode where
  | mnone
  | mperiods
  | mswim
deriving DecidableEq

/-- The loop state of `parseRoadmapText`.  The JS `currentSwimlane` is an
aliased reference into the `swimlanes` array; it is modelled as an index. -/
structure PState where
  timePeriods : List TimePeriod
  swimlanes : List Swimlane
  title : Option String
  currentLane : Option Nat
  mode : PMode
  itemCounter : Nat
deriving DecidableEq

def modifyAt : List α → Nat → (α → α) → List α
  | [], _, _ => []
  | a :: l, 0, f => f a :: l
  | a :: l, n + 1, f => a :: modifyAt l n f

structure ItemAcc where
  startE : List Char
  endE : Option (List Char)
  lenE : Option (List Char)
  colorE : Option (List Char)

/-- parser.ts `parseItem`.  `split(":")[1]?.trim()` keeps only the text between
the first and second colon; `value || ""` maps an absent value to the empty
string.  A recognized key on a lower-cased segment must be followed directly by
a colon.  `parts` is never empty (a JS `split` always yields at least one
element), so the `null` case is unreachable but kept. -/
def parseItem (text : List Char) (index : Nat) (lane : String) : Option RoadmapItem :=
  let parts := (splitCh '|' text).map trimCh
  match parts with
  | [] => none
  | t :: rest =>
    let acc := rest.foldl (fun (acc : ItemAcc) part =>
      let low := toLowerCh part
      let v : Option (List Char) := ((splitCh ':' part).get? 1).map trimCh
      if startsWithCh ("start:".data) low then { acc with startE := v.getD [] }
      else if startsWithCh ("end:".data) low then { acc with endE := v }
      else if startsWithCh ("length:".data) low then { acc with lenE := v }
      else if startsWithCh ("color:".data) low then { acc with colorE := v }
      else acc) ⟨[], none, none, none⟩
    let startE := if acc.startE = [] then "0".data else acc.startE
    some
      { id := String.mk ("item-".data ++ natToStr index)
        title := String.mk t
        startExpression := String.mk startE
        endExpression := acc.endE.map String.mk
        lengthExpression := acc.lenE.map String.mk
        swimlane := lane
        color := acc.colorE.map String.mk }

/-- Open a new swimlane (`swimlane-<n>` id from the current array length). -/
def newLane (st : PState) (label : List Char) : PState :=
  { st with
    swimlanes := st.swimlanes ++
      [{ id := String.mk ("swimlane-".data ++ natToStr st.swimlanes.length)
         label := String.mk label
         items := [] }]
    currentLane := some st.swimlanes.length
    mode := .mswim }

/-- Parse one item line (`itemCounter++` happens whether or not the item is
kept). -/
def addItemLine (st : PState) (l : List Char) : PState :=
  let laneId := ((st.currentLane.bind (fun i => st.swimlanes.get? i)).map Swimlane.id).getD ""
  let item := parseItem (trimCh (l.drop 1)) st.itemCounter laneId
  let st1 := { st with itemCounter := st.itemCounter + 1 }
  match item, st.currentLane with
  | some it, some idx =>
    { st1 with
      swimlanes := modifyAt st1.swimlanes idx (fun lane => { lane with items := lane.items ++ [it] }) }
  | _, _ => st1

/-- One iteration of the `for (const line of lines)` loop of
`parseRoadmapText`, with the same branch order as the source.  The generic
`## ` header with an empty label has no `continue` in the source and falls
through to the later checks, which cannot match a `#`-line; this is modelled by
the `none` arm of `handled`. -/
def stepLine (st : PState) (l : List Char) : PState :=
  if startsWithCh ("# ".data) l ∧ ¬ startsWithCh ("## ".data) l then
    { st with title := some (String.mk (trimCh (l.drop 2))) }
  else
    let handled : Option PState :=
      if startsWithCh ("## ".data) l then
        let header := toLowerCh (trimCh (l.drop 3))
        if header = "periods".data ∨ header = "time periods".data ∨ header = "timeline".data then
          some { st with mode := .mperiods }
        else if startsWithCh ("swimlane:".data) header ∨ startsWithCh ("team:".data) header ∨
            startsWithCh ("lane:".data) header then
          let v := ((splitCh ':' (l.drop 3)).get? 1).map trimCh
          let label :=
            match v with
            | none => "Default".data
            | some s => if s = [] then "Default".data else s
          some (newLane st label)
        else
          let label := trimCh (l.drop 3)
          if label ≠ [] then some (newLane st label) else none
      else none
    match handled with
    | some st2 => st2
    | none =>
      if st.mode = .mperiods ∧ ¬ startsWithCh ("#".data) l ∧ ¬ startsWithCh ("-".data) l then
        let toks := ((splitCh ',' l).map trimCh).filter (fun p => !p.isEmpty)
        { st with
          timePeriods := toks.foldl (fun tps tok =>
            tps ++ [{ id := String.mk (squashWS tok), label := String.mk tok, index := tps.length }])
            st.timePeriods }
      else if st.mode = .mswim ∧ startsWithCh ("-".data) l then
        match st.currentLane with
        | none =>
          let st2 := { st with
            swimlanes := st.swimlanes ++ [{ id := "swimlane-default", label := "Default", items := [] }]
            currentLane := some st.swimlanes.length }
          addItemLine st2 l
        | some _ => addItemLine st l
      else st

/-- The trimmed non-empty lines of the input. -/
def linesOf (text : String) : List (List Char) :=
  ((splitCh '\n' text.data).map trimCh).filter (fun l => !l.isEmpty)

def initState : PState :=
  { timePeriods := [], swimlanes := [], title := none, currentLane := none
    mode := .mnone, itemCounter := 0 }

def defaultPeriods : List TimePeriod :=
  [{ id := "Q1", label := "Q1", index := 0 }, { id := "Q2", label := "Q2", index := 1 },
   { id := "Q3", label := "Q3", index := 2 }, { id := "Q4", label := "Q4", index := 3 }]

/-- parser.ts `parseRoadmapText`. -/
def parseRoadmapText (text : String) : RoadmapData :=
  let st := (linesOf text).foldl stepLine initState
  { timePeriods := if st.timePeriods = [] then defaultPeriods else st.timePeriods
    swimlanes := st.swimlanes
    title := st.title }

/-! ### resolveRoadmap (parser.ts lines 205-280) -/

/-- JS `Map.set`: an existing key keeps its position and gets the new value,
a fresh key is appended. -/
def mapSet (m : List (String × Nat)) (k : String) (v : Nat) : List (String × Nat) :=
  if m.any (fun p => p.1 == k) then m.map (fun p => if p.1 == k then (k, v) else p)
  else m ++ [(k, v)]

def lowerStr (s : String) : String := String.mk (toLowerCh s.data)

/-- The period lookup built by `resolveRoadmap`: both the lower-cased id and
the lower-cased label map to the `forEach` position. -/
def buildPeriodMap (tps : List TimePeriod) : List (String × Nat) :=
  (tps.enum).foldl (fun m ip => mapSet (mapSet m (lowerStr ip.2.id) ip.1) (lowerStr ip.2.label) ip.1) []

/-- parser.ts `resolveItem`.  `if (item.endExpression)` is a JS truthiness
test, so an empty end expression falls through to the length branch. -/
def resolveItem (item : RoadmapItem) (periodMap : List (String × Nat))
    (totalPeriods : Nat) (colorIndex : Nat) : ResolvedItem :=
  let startIndex := evaluateExpression item.startExpression periodMap totalPeriods
  let endIndex0 :=
    if jsTruthy item.endExpression then
      evaluateExpression (item.endExpression.getD "") periodMap totalPeriods
    else if jsTruthy item.lengthExpression then
      jadd startIndex (evaluateExpression (item.lengthExpression.getD "") periodMap totalPeriods)
    else
      jadd startIndex (.fin 1)
  let endIndex := if jle endIndex0 startIndex then jadd startIndex (.fin 1) else endIndex0
  { id := item.id
    title := item.title
    startIndex := startIndex
    endIndex := endIndex
    swimlane := item.swimlane
    color := jsOrStr item.color (COLORS.getD (colorIndex % COLORS.length) "") }

/-- The items of one swimlane, with the running document-order color counter. -/
def resolveItemsFrom (periodMap : List (String × Nat)) (totalPeriods : Nat) :
    Nat → List RoadmapItem → List ResolvedItem
  | _, [] => []
  | c, it :: its =>
    resolveItem it periodMap totalPeriods c :: resolveItemsFrom periodMap totalPeriods (c + 1) its

/-- The swimlane map of `resolveRoadmap`; the color counter is threaded across
swimlanes (incremented once per item, never reset). -/
def resolveLanes (periodMap : List (String × Nat)) (totalPeriods : Nat) :
    Nat → List Swimlane → List ResolvedSwimlane
  | _, [] => []
  | c, lane :: rest =>
    { id := lane.id, label := lane.label
      items := resolveItemsFrom periodMap totalPeriods c lane.items } ::
      resolveLanes periodMap totalPeriods (c + lane.items.length) rest

/-- parser.ts `resolveRoadmap`. -/
def resolveRoadmap (data : RoadmapData) : ResolvedRoadmap :=
  { timePeriods := data.timePeriods
    swimlanes := resolveLanes (buildPeriodMap data.timePeriods) data.timePeriods.length 0 data.swimlanes
    title := data.title }

/-- All resolved items of a document, in document order. -/
def flatItems (r : ResolvedRoadmap) : List ResolvedItem :=
  (r.swimlanes.map ResolvedSwimlane.items).flatten

/-! ### Row packing (renderer.ts lines 130-181; the draw.io exporter's
`calculateRows`/`assignRows` are line-for-line the same algorithm) -/

/-- The `{startIndex, endIndex}` fields the generic row packers read. -/
structure SpanItem where
  startIndex : ℚ
  endIndex : ℚ
deriving DecidableEq

def leStart (a b : SpanItem) : Prop := a.startIndex ≤ b.startIndex

instance : DecidableRel leStart :=
  fun a b => inferInstanceAs (Decidable (a.startIndex ≤ b.startIndex))

instance : IsTotal SpanItem leStart := ⟨fun a b => le_total a.startIndex b.startIndex⟩

instance : IsTrans SpanItem leStart := ⟨fun _ _ _ h1 h2 => le_trans h1 h2⟩

/-- `[...items].sort((a, b) => a.startIndex - b.startIndex)`: a stable
ascending sort by start (stable sorts under a total preorder are unique, so
the stable `insertionSort` is extensionally the JS sort). -/
def sortByStart (items : List SpanItem) : List SpanItem := List.insertionSort leStart items

/-- The inner `for (let r = 0; ...)` scan: put the item in the first row whose
tracked end is `<=` its start (updating that row's end), else append a row.
Returns the assigned row index and the updated row ends. -/
def place : List ℚ → SpanItem → Nat × List ℚ
  | [], it => (0, [it.endIndex])
  | e :: rest, it =>
    if e ≤ it.startIndex then (0, it.endIndex :: rest)
    else
      let pr := place rest it
      (pr.1 + 1, e :: pr.2)

/-- renderer.ts `assignItemRows` after sorting: fold `place` over the items,
recording each row assignment (output is in sorted-input order). -/
def assignRowsAux : List ℚ → List SpanItem → List (SpanItem × Nat)
  | _, [] => []
  | rows, it :: its =>
    let pr := place rows it
    (it, pr.1) :: assignRowsAux pr.2 its

def assignItemRows (items : List SpanItem) : List (SpanItem × Nat) :=
  assignRowsAux [] (sortByStart items)

/-- The final row-end list after packing every item. -/
def packAux : List ℚ → List SpanItem → List ℚ
  | rows, [] => rows
  | rows, it :: its => packAux (place rows it).2 its

/-- renderer.ts `calculateItemRows` (same early return for `[]` and final
`Math.max(rows.length, 1)` as the source). -/
def calculateItemRows (items : List SpanItem) : Nat :=
  if items.isEmpty then 1
  else max (packAux [] (sortByStart items)).length 1

/-- Two half-open intervals `[start, end)` intersect. -/
def overlaps (a b : SpanItem) : Prop :=
  a.startIndex < b.endIndex ∧ b.startIndex < a.endIndex

/-- The item's `[start, end)` interval contains the point `p`. -/
def containsB (p : ℚ) (it : SpanItem) : Bool :=
  decide (it.startIndex ≤ p) && decide (p < it.endIndex)

/-- How many items are simultaneously active at point `p`. -/
def overcount (items : List SpanItem) (p : ℚ) : Nat := (items.filter (containsB p)).length

/-- The maximum number of items simultaneously active at any point of the
timeline; for `[start, end)` intervals the maximum is attained at an item
start, so it suffices to scan the start points. -/
def maxOver (items : List SpanItem) : Nat :=
  (items.map (fun it => overcount items it.startIndex)).foldl max 0

/-! ### Auxiliary definitions for the claims -/

instance {ε α : Type} [DecidableEq ε] [DecidableEq α] : DecidableEq (Except ε α) := fun a b =>
  match a, b with
  | .error e1, .error e2 =>
    if h : e1 = e2 then isTrue (by rw [h]) else isFalse (fun hc => by cases hc; exact h rfl)
  | .error _, .ok _ => isFalse (fun hc => by cases hc)
  | .ok _, .error _ => isFalse (fun hc => by cases hc)
  | .ok v1, .ok v2 =>
    if h : v1 = v2 then isTrue (by rw [h]) else isFalse (fun hc => by cases hc; exact h rfl)

/-- A line that the title branch of the parser accepts. -/
def isTitleLine (l : List Char) : Bool :=
  startsWithCh ("# ".data) l && !startsWithCh ("## ".data) l

/-- Specification of the title actually produced: every title line overwrites
the accumulator, so the last title line of the input wins. -/
def lastTitle (acc : Option String) : List (List Char) → Option String
  | [] => acc
  | l :: ls => lastTitle (if isTitleLine l then some (String.mk (trimCh (l.drop 2))) else acc) ls

def dSpan : SpanItem := { startIndex := 0, endIndex := 0 }

def dPair : SpanItem × Nat := (dSpan, 0)

def dResolved : ResolvedItem :=
  { id := "", title := "", startIndex := .fin 0, endIndex := .fin 0, swimlane := "", color := "" }

def dLane : ResolvedSwimlane := { id := "", label := "", items := [] }

/-- A document whose single item has an infinite start index
(`(1)/0` evaluates to `Infinity` through the sanitized-expression evaluator). -/
def infiniteStartItem : RoadmapItem :=
  { id := "item-0", title := "A", startExpression := "(1)/0", endExpression := none
    lengthExpression := none, swimlane := "s", color := none }

def infiniteStartDoc : RoadmapData :=
  { timePeriods := []
    swimlanes := [{ id := "s", label := "S", items := [infiniteStartItem] }]
    title := none }

/-- An item carrying both an end and a length expression. -/
def endAndLengthItem : RoadmapItem :=
  { id := "item-0", title := "X", startExpression := "1", endExpression := some "3"
    lengthExpression := some "5", swimlane := "s", color := none }

/-- Three spans: two copies of `[0,2)` and one `[2,3)`. -/
def demoSpans : List SpanItem :=
  [{ startIndex := 0, endIndex := 2 }, { startIndex := 0, endIndex := 2 },
   { startIndex := 2, endIndex := 3 }]

def demoColorItem (n : Nat) : RoadmapItem :=
  { id := String.mk ("item-".data ++ natToStr n), title := "T", startExpression := "0"
    endExpression := none, lengthExpression := none, swimlane := "s", color := none }

/-- Sixteen colorless items split over two swimlanes. -/
def demoColorDoc : RoadmapData :=
  { timePeriods := []
    swimlanes :=
      [{ id := "s0", label := "A", items := (List.range 9).map demoColorItem },
       { id := "s1", label := "B", items := (List.range 7).map (fun n => demoColorItem (9 + n)) }]
    title := none }

/-! ## Theorems -/

/-! ### C1: the resolver clamp -/

/-- C1: the resolver's clamp (`if (endIndex <= startIndex) endIndex =
startIndex + 1`, under the source comment "Ensure end is after start") cannot
separate the endpoints wherever JS computes `startIndex + 1 == startIndex`:
with `startExpression = "(1)/0"` the evaluator returns `Infinity`, the clamp
sets `endIndex = Infinity + 1 = Infinity`, and the resolver emits a resolved
item with `endIndex = startIndex` — `endIndex > startIndex` is false.  (In the
real program the same failure also occurs at finite doubles of magnitude at
least 2^53, e.g. `startExpression = "9007199254740992"`, where IEEE-754
rounding gives `x + 1 === x`; that case lies outside this exact-rational
model, so the infinite start is the failing input evaluated here.) -/
theorem c1_clamp_fails_at_infinity :
    (((resolveRoadmap infiniteStartDoc).swimlanes.getD 0 dLane).items.getD 0 dResolved).startIndex
        = JNum.posInf ∧
    (((resolveRoadmap infiniteStartDoc).swimlanes.getD 0 dLane).items.getD 0 dResolved).endIndex
        = JNum.posInf ∧
    jlt (((resolveRoadmap infiniteStartDoc).swimlanes.getD 0 dLane).items.getD 0 dResolved).startIndex
        (((resolveRoadmap infiniteStartDoc).swimlanes.getD 0 dLane).items.getD 0 dResolved).endIndex
        = false := by
  with_unfolding_all decide

/-- C4 (amended): `evaluateExpression` is a total function; when the
numeric-prefix fast path does not apply and the sanitized-string evaluation
throws (or produces a non-number) or yields NaN, the result is `0`.  An
infinite evaluation result, however, is returned unchanged (the source guards
only with `isNaN`, not `isFinite`) — see the counterexample. -/
theorem c4_zero_on_throw_or_nan (expr : String) (pm : List (String × Nat)) (t : Nat)
    (hfast : (parseFloat expr).isNan = true)
    (hev : jsEval (sanitize (substitutePeriods expr pm)) = Except.error () ∨
      jsEval (sanitize (substitutePeriods expr pm)) = Except.ok JNum.nan) :
    evaluateExpression expr pm t = JNum.fin 0 := by
  unfold evaluateExpression
  by_cases h1 : expr = ""
  · simp [h1]
  · rw [if_neg h1, if_pos hfast]
    by_cases h3 : sanitize (substitutePeriods expr pm) = ""
    · simp [h3]
    · rw [if_neg h3]
      rcases hev with hev | hev
    
      · rw [hev]
      · rw [hev]
        simp [JNum.isNan]

/-- C4 counterexample: `(1)/0` evaluates to `Infinity` after sanitization and
is returned as-is, not replaced by `0`, although it is non-finite. -/
theorem c4_infinity_counterexample :
    jsEval (sanitize (substitutePeriods "(1)/0" [])) = Except.ok JNum.posInf ∧
    evaluateExpression "(1)/0" [] 0 = JNum.posInf ∧ JNum.posInf ≠ JNum.fin 0 := by
  with_unfolding_all decide

theorem c4_witness : evaluateExpression "((" [] 0 = JNum.fin 0 :=
  c4_zero_on_throw_or_nan "((" [] 0 (by with_unfolding_all decide)
    (Or.inl (by with_unfolding_all decide))

/-- C8: when an item has a non-empty `endExpression`, the resolver takes the
end branch and never consults `lengthExpression` (removing the length gives the
same resolved item); when the end expression is absent or empty, the resolver
behaves exactly as if there were no end expression (the length branch is
consulted). -/
theorem c8_end_wins_over_length (item : RoadmapItem) (pm : List (String × Nat)) (t c : Nat) :
    (∀ e : String, item.endExpression = some e → e ≠ "" →
      resolveItem item pm t c = resolveItem { item with lengthExpression := none } pm t c) ∧
    ((item.endExpression = none ∨ item.endExpression = some "") →
      resolveItem item pm t c = resolveItem { item with endExpression := none } pm t c) := by
  constructor
  · intro e he hne
    have ht : jsTruthy item.endExpression = true := by
      rw [he]; simp [jsTruthy, hne]
    unfold resolveItem
    simp [ht]
  · intro h
    unfold resolveItem
    rcases h with h | h <;> rw [h] <;> rfl

theorem c8_witness :
    resolveItem endAndLengthItem [] 0 0
      = resolveItem { endAndLengthItem with lengthExpression := none } [] 0 0 :=
  (c8_end_wins_over_length endAndLengthItem [] 0 0).1 "3" rfl (by with_unfolding_all decide)

/-- C9: `calculateItemRows` always returns at least one row, and returns
exactly one row for an empty item list. -/
theorem c9_at_least_one_row :
    (∀ items : List SpanItem, 1 ≤ calculateItemRows items) ∧ calculateItemRows [] = 1 := by
  constructor
  · intro items
    unfold calculateItemRows
    by_cases h : items.isEmpty
    · simp [h]
    · simp [h]
  · rfl

/-- C6: the claim describes the `swimlane-default` synthesis branch of the
source (parser.ts lines 128-135), but that branch is unreachable: item lines
are only processed when `parsingSection === "swimlane"`, and every transition
into that mode creates a swimlane first.  An item line with no open swimlane is
silently dropped: parsing just `"- Task A"` produces no swimlane at all. -/
theorem c6_item_without_lane_dropped :
    (parseRoadmapText "- Task A").swimlanes = [] ∧
    (parseRoadmapText "- Task A").timePeriods = defaultPeriods := by
  with_unfolding_all decide

/-- C5 counterexample: with input `"# A\n# B"` the parsed title is `"B"`, not
the first title line `"A"` — each title line overwrites the title, so the last
one wins, contradicting the claim that subsequent title lines are ignored. -/
theorem c5_first_title_counterexample :
    (parseRoadmapText "# A\n# B").title = some "B" ∧
    (parseRoadmapText "# A\n# B").title ≠ some "A" := by
  with_unfolding_all decide

/-- C3 counterexample: for the empty item list the row count is 1 (the
function's floor), while no point of the timeline has any overlapping item, so
the row count differs from the maximum overlap count. -/
theorem c3_empty_counterexample :
    calculateItemRows ([] : List SpanItem) = 1 ∧ maxOver ([] : List SpanItem) = 0 ∧
    calculateItemRows ([] : List SpanItem) ≠ maxOver ([] : List SpanItem) := by
  with_unfolding_all decide

/-- C10: whenever `parseFloat` finds a numeric prefix (the expression need not
be a number as a whole), `evaluateExpression` returns that prefix at once; the
result does not depend on the period map, so period-name substitution and
sanitization are bypassed. -/
theorem c10_numeric_prefix_fast_path (expr : String) (pm : List (String × Nat)) (t : Nat)
    (h : (parseFloat expr).isNan = false) :
    evaluateExpression expr pm t = parseFloat expr := by
  unfold evaluateExpression
  by_cases h1 : expr = ""
  · subst h1
    have : parseFloat "" = JNum.nan := by with_unfolding_all decide
    rw [this] at h
    simp [JNum.isNan] at h
  · rw [if_neg h1]
    simp [h]

theorem c10_witness : evaluateExpression "2026 q1" [("x", 3)] 4 = parseFloat "2026 q1" :=
  c10_numeric_prefix_fast_path "2026 q1" [("x", 3)] 4 (by with_unfolding_all decide)

/-! ### C5: the document title -/

theorem newLane_title (st : PState) (l : List Char) : (newLane st l).title = st.title := rfl

theorem addItemLine_title (st : PState) (l : List Char) :
    (addItemLine st l).title = st.title := by
  unfold addItemLine
  dsimp only
  split <;> rfl

theorem stepLine_title (st : PState) (l : List Char) :
    (stepLine st l).title
      = if isTitleLine l then some (String.mk (trimCh (l.drop 2))) else st.title := by
  have hiff : isTitleLine l = true ↔
      (startsWithCh ("# ".data) l = true ∧ ¬ startsWithCh ("## ".data) l = true) := by
    simp [isTitleLine, Bool.and_eq_true, Bool.not_eq_true']
  by_cases h : isTitleLine l
  · rw [if_pos h]
    unfold stepLine
    rw [if_pos (hiff.mp h)]
  · rw [if_neg h]
    unfold stepLine
    rw [if_neg (fun hc => h (hiff.mpr hc))]
    dsimp only
    split
    · rename_i st2 heq
      repeat' split at heq
      all_goals first | (cases heq; rfl) | (cases heq)
    · rename_i heq
      repeat' split
      all_goals first | rfl | (rw [addItemLine_title])

theorem foldl_stepLine_title (ls : List (List Char)) :
    ∀ st : PState, (ls.foldl stepLine st).title = lastTitle st.title ls := by
  induction ls with
  | nil => intro st; rfl
  | cons l ls ih =>
    intro st
    rw [List.foldl_cons, ih (stepLine st l)]
    show lastTitle (stepLine st l).title ls
      = lastTitle (if isTitleLine l then some (String.mk (trimCh (l.drop 2))) else st.title) ls
    rw [stepLine_title]

/-- C5 (amended): the parser does not keep the first title line — every line of
form `"# <text>"` (and not `"## "`) overwrites the document title, so the LAST
title line wins; with no title line the title stays unset.  (The original
first-occurrence claim is refuted by the counterexample.) -/
theorem c5_title_is_last_title_line (text : String) :
    (parseRoadmapText text).title = lastTitle none (linesOf text) := by
  show ((linesOf text).foldl stepLine initState).title = lastTitle none (linesOf text)
  rw [foldl_stepLine_title]
  rfl

/-! ### C7: palette color assignment -/

theorem jsOrStr_of_falsy (o : Option String) (d : String) (h : jsTruthy o = false) :
    jsOrStr o d = d := by
  cases o with
  | none => rfl
  | some s =>
    simp [jsTruthy] at h
    simp [jsOrStr, h]

theorem resolveItem_color (item : RoadmapItem) (pm : List (String × Nat)) (t c : Nat)
    (h : jsTruthy item.color = false) :
    (resolveItem item pm t c).color = COLORS.getD (c % COLORS.length) "" := by
  show jsOrStr item.color (COLORS.getD (c % COLORS.length) "") = _
  exact jsOrStr_of_falsy _ _ h

theorem resolveItemsFrom_color_map (pm : List (String × Nat)) (t : Nat) :
    ∀ (its : List RoadmapItem) (c : Nat), (∀ it ∈ its, jsTruthy it.color = false) →
      (resolveItemsFrom pm t c its).map ResolvedItem.color
        = (List.range its.length).map (fun k => COLORS.getD ((c + k) % COLORS.length) "") := by
  intro its
  induction its with
  | nil => intro c h; rfl
  | cons a its ih =>
    intro c h
    show (resolveItem a pm t c).color :: (resolveItemsFrom pm t (c + 1) its).map ResolvedItem.color
      = _
    rw [resolveItem_color a pm t c (h a (List.mem_cons_self a its)),
      ih (c + 1) (fun it hit => h it (List.mem_cons_of_mem a hit))]
    rw [List.length_cons, List.range_succ_eq_map, List.map_cons, List.map_map, Nat.add_zero]
    congr 1
    apply List.map_congr_left
    intro k _
    show COLORS.getD ((c + 1 + k) % COLORS.length) "" = COLORS.getD ((c + (k + 1)) % COLORS.length) ""
    have hh : c + 1 + k = c + (k + 1) := by omega
    rw [hh]

theorem resolveLanes_color_map (pm : List (String × Nat)) (t : Nat) :
    ∀ (lanes : List Swimlane) (c : Nat),
      (∀ lane ∈ lanes, ∀ it ∈ lane.items, jsTruthy it.color = false) →
      ((resolveLanes pm t c lanes).map ResolvedSwimlane.items).flatten.map ResolvedItem.color
        = (List.range ((lanes.map (fun lane => lane.items.length)).sum)).map
            (fun k => COLORS.getD ((c + k) % COLORS.length) "") := by
  intro lanes
  induction lanes with
  | nil => intro c h; rfl
  | cons a lanes ih =>
    intro c h
    show ((resolveItemsFrom pm t c a.items
        :: (resolveLanes pm t (c + a.items.length) lanes).map ResolvedSwimlane.items).flatten).map
        ResolvedItem.color = _
    rw [List.flatten_cons, List.map_append,
      resolveItemsFrom_color_map pm t a.items c (h a (List.mem_cons_self a lanes)),
      ih (c + a.items.length) (fun lane hl => h lane (List.mem_cons_of_mem a hl))]
    rw [List.map_cons, List.sum_cons, List.range_add, List.map_append, List.map_map]
    congr 1
    apply List.map_congr_left
    intro k _
    show COLORS.getD ((c + a.items.length + k) % COLORS.length) ""
      = COLORS.getD ((c + (a.items.length + k)) % COLORS.length) ""
    have hh : c + a.items.length + k = c + (a.items.length + k) := by omega
    rw [hh]

theorem resolveItemsFrom_length (pm : List (String × Nat)) (t : Nat) :
    ∀ (its : List RoadmapItem) (c : Nat), (resolveItemsFrom pm t c its).length = its.length := by
  intro its
  induction its with
  | nil => intro c; rfl
  | cons a its ih =>
    intro c
    show (resolveItemsFrom pm t (c + 1) its).length + 1 = its.length + 1
    rw [ih]

theorem resolveLanes_flat_length (pm : List (String × Nat)) (t : Nat) :
    ∀ (lanes : List Swimlane) (c : Nat),
      ((resolveLanes pm t c lanes).map ResolvedSwimlane.items).flatten.length
        = (lanes.map (fun lane => lane.items.length)).sum := by
  intro lanes
  induction lanes with
  | nil => intro c; rfl
  | cons a lanes ih =>
    intro c
    show (resolveItemsFrom pm t c a.items
        :: (resolveLanes pm t (c + a.items.length) lanes).map ResolvedSwimlane.items).flatten.length
      = _
    rw [List.flatten_cons, List.length_append, resolveItemsFrom_length, ih,
      List.map_cons, List.sum_cons]

/-- C7: with no explicit colors, the resolver assigns palette colors by one
counter that increments once per item in document order across all swimlanes:
the flattened color sequence is exactly `COLORS[k % 15]` for `k = 0, 1, 2, …`;
the 15-entry palette has pairwise distinct colors, so the first 15 items get 15
distinct colors and the 16th (index 15, and 15 % 15 = 0) repeats the first. -/
theorem c7_palette_cycles (data : RoadmapData)
    (h : ∀ lane ∈ data.swimlanes, ∀ it ∈ lane.items, jsTruthy it.color = false) :
    (flatItems (resolveRoadmap data)).map ResolvedItem.color
      = (List.range (flatItems (resolveRoadmap data)).length).map
          (fun k => COLORS.getD (k % COLORS.length) "") ∧
    COLORS.length = 15 ∧ COLORS.Nodup := by
  refine ⟨?_, rfl, by decide⟩
  have hlen : (flatItems (resolveRoadmap data)).length
      = (data.swimlanes.map (fun lane => lane.items.length)).sum :=
    resolveLanes_flat_length (buildPeriodMap data.timePeriods) data.timePeriods.length
      data.swimlanes 0
  rw [hlen]
  have hmap := resolveLanes_color_map (buildPeriodMap data.timePeriods) data.timePeriods.length
    data.swimlanes 0 h
  refine hmap.trans ?_
  apply List.map_congr_left
  intro k _
  rw [Nat.zero_add]

theorem c7_witness :
    (flatItems (resolveRoadmap demoColorDoc)).map ResolvedItem.color
      = (List.range (flatItems (resolveRoadmap demoColorDoc)).length).map
          (fun k => COLORS.getD (k % COLORS.length) "") ∧
    COLORS.length = 15 ∧ COLORS.Nodup :=
  c7_palette_cycles demoColorDoc (by with_unfolding_all decide)

/-! ### C2/C3: row packing.  `getD` helper lemmas -/

theorem getD_set_self {α : Type} (l : List α) (i : Nat) (v d : α) (h : i < l.length) :
    (l.set i v).getD i d = v := by
  induction l generalizing i with
  | nil => simp at h
  | cons a l ih =>
    cases i with
    | zero => rfl
    | succ i => exact ih i (by simpa using h)

theorem getD_set_other {α : Type} (l : List α) (i j : Nat) (v d : α) (h : j ≠ i) :
    (l.set i v).getD j d = l.getD j d := by
  induction l generalizing i j with
  | nil => rfl
  | cons a l ih =>
    cases i with
    | zero =>
      cases j with
      | zero => exact absurd rfl h
      | succ j => rfl
    | succ i =>
      cases j with
      | zero => rfl
      | succ j => exact ih i j (fun hc => h (by rw [hc]))

theorem getD_append_left {α : Type} (l1 l2 : List α) (i : Nat) (d : α) (h : i < l1.length) :
    (l1 ++ l2).getD i d = l1.getD i d := by
  induction l1 generalizing i with
  | nil => simp at h
  | cons a l1 ih =>
    cases i with
    | zero => rfl
    | succ i => exact ih i (by simpa using h)

theorem getD_append_len {α : Type} (l1 : List α) (v d : α) :
    (l1 ++ [v]).getD l1.length d = v := by
  induction l1 with
  | nil => rfl
  | cons a l1 ih => exact ih

theorem getD_eq_get {α : Type} (l : List α) (i : Nat) (d : α) (h : i < l.length) :
    l.getD i d = l.get ⟨i, h⟩ := by
  induction l generalizing i with
  | nil => simp at h
  | cons a l ih =>
    cases i with
    | zero => rfl
    | succ i => exact ih i (by simpa using h)

/-! ### The first-fit scan -/

/-- Full specification of one `place` scan: either the item lands in an
existing row `r` — the first one with tracked end `<=` the item's start — whose
end is updated, or every row is still busy (`start <` every tracked end) and a
new row is appended. -/
theorem place_spec (rows : List ℚ) (it : SpanItem) :
    ((place rows it).1 < rows.length ∧
      (place rows it).2 = rows.set (place rows it).1 it.endIndex ∧
      rows.getD (place rows it).1 0 ≤ it.startIndex) ∨
    ((place rows it).1 = rows.length ∧
      (place rows it).2 = rows ++ [it.endIndex] ∧
      ∀ c, c < rows.length → it.startIndex < rows.getD c 0) := by
  induction rows with
  | nil =>
    right
    refine ⟨rfl, rfl, ?_⟩
    intro c hc
    simp at hc
  | cons e rest ih =>
    by_cases h : e ≤ it.startIndex
    · have hp : place (e :: rest) it = (0, it.endIndex :: rest) := by simp [place, h]
      left
      rw [hp]
      exact ⟨Nat.succ_pos _, rfl, h⟩
    · have hp : place (e :: rest) it = ((place rest it).1 + 1, e :: (place rest it).2) := by
        simp [place, h]
      rcases ih with ⟨h1, h2, h3⟩ | ⟨h1, h2, h3⟩
      · left
        rw [hp]
        refine ⟨by simpa using Nat.succ_lt_succ h1, ?_, ?_⟩
        · rw [h2]; rfl
        · exact h3
      · right
        rw [hp]
        refine ⟨by rw [h1]; rfl, by rw [h2]; rfl, ?_⟩
        intro c hc
        cases c with
        | zero => exact lt_of_not_le h
        | succ c => exact h3 c (by simpa using hc)

theorem place_snd_length (rows : List ℚ) (it : SpanItem) :
    rows.length ≤ (place rows it).2.length := by
  rcases place_spec rows it with ⟨-, h2, -⟩ | ⟨-, h2, -⟩
  · rw [h2]; simp
  · rw [h2]; simp

theorem place_fst_lt_snd (rows : List ℚ) (it : SpanItem) :
    (place rows it).1 < (place rows it).2.length := by
  rcases place_spec rows it with ⟨h1, h2, -⟩ | ⟨h1, h2, -⟩
  · rw [h2]; simpa using h1
  · rw [h1, h2]; simp

theorem place_snd_getD_fst (rows : List ℚ) (it : SpanItem) :
    (place rows it).2.getD (place rows it).1 0 = it.endIndex := by
  rcases place_spec rows it with ⟨h1, h2, -⟩ | ⟨h1, h2, -⟩
  · rw [h2]; exact getD_set_self rows _ _ _ h1
  · rw [h1, h2]; exact getD_append_len rows _ _

theorem place_snd_getD_other (rows : List ℚ) (it : SpanItem) (c : Nat)
    (hc : c < rows.length) (hne : c ≠ (place rows it).1) :
    (place rows it).2.getD c 0 = rows.getD c 0 := by
  rcases place_spec rows it with ⟨-, h2, -⟩ | ⟨-, h2, -⟩
  · rw [h2]; exact getD_set_other rows _ c _ _ hne
  · rw [h2]; exact getD_append_left rows _ c _ hc

theorem assignRowsAux_map_fst : ∀ (its : List SpanItem) (rows : List ℚ),
    (assignRowsAux rows its).map Prod.fst = its := by
  intro its
  induction its with
  | nil => intro rows; rfl
  | cons it its ih =>
    intro rows
    show it :: (assignRowsAux (place rows it).2 its).map Prod.fst = it :: its
    rw [ih]

theorem exists_first_user {α : Type} :
    ∀ (L : List (α × Nat)) (c : Nat) (y : α), (y, c) ∈ L →
      ∃ La w Lb, L = La ++ (w, c) :: Lb ∧ (∀ z ∈ La, z.2 ≠ c) ∧ (y = w ∨ (y, c) ∈ Lb) := by
  intro L
  induction L with
  | nil => intro c y hy; simp at hy
  | cons a L ih =>
    intro c y hy
    by_cases hac : a.2 = c
    · refine ⟨[], a.1, L, ?_, by simp, ?_⟩
      · rw [show ((a.1, c) : α × Nat) = a from by rw [← hac]]
        rfl
      · rcases List.mem_cons.mp hy with h | h
        · left
          exact congrArg Prod.fst h
        · right; exact h
    · have hy' : (y, c) ∈ L := by
        rcases List.mem_cons.mp hy with h | h
        · exact absurd (congrArg Prod.snd h).symm hac
        · exact h
      obtain ⟨La, w, Lb, hdec, hLa, hyw⟩ := ih c y hy'
      refine ⟨a :: La, w, Lb, by rw [hdec]; rfl, ?_, hyw⟩
      intro z hz
      rcases List.mem_cons.mp hz with h | h
      · rw [h]; exact hac
      · exact hLa z h

/-- Until some item is placed in row `c`, the tracked end of row `c` does not
change; so the first item of the output that uses row `c` saw the initial
tracked end, which therefore bounds its start. -/
theorem firstUser_bound : ∀ (its : List SpanItem) (rows : List ℚ) (c : Nat)
    (l1 : List (SpanItem × Nat)) (y : SpanItem) (l2 : List (SpanItem × Nat)),
    c < rows.length →
    assignRowsAux rows its = l1 ++ (y, c) :: l2 →
    (∀ z ∈ l1, z.2 ≠ c) →
    rows.getD c 0 ≤ y.startIndex := by
  intro its
  induction its with
  | nil =>
    intro rows c l1 y l2 hc heq hz
    cases l1 <;> simp [assignRowsAux] at heq
  | cons it its ih =>
    intro rows c l1 y l2 hc heq hz
    have hstep : assignRowsAux rows (it :: its)
        = (it, (place rows it).1) :: assignRowsAux (place rows it).2 its := rfl
    rw [hstep] at heq
    cases l1 with
    | nil =>
      rw [List.nil_append] at heq
      obtain ⟨hhead, -⟩ := List.cons_eq_cons.mp heq
      have hyit : y = it := (congrArg Prod.fst hhead).symm
      have hcr : (place rows it).1 = c := congrArg Prod.snd hhead
      rcases place_spec rows it with ⟨-, -, h3⟩ | ⟨h1, -, -⟩
      · rw [hcr] at h3
        rw [hyit]
        exact h3
      · rw [hcr] at h1
        exact absurd (h1 ▸ hc) (lt_irrefl rows.length)
    | cons z l1' =>
      obtain ⟨hz1, heq'⟩ := List.cons_eq_cons.mp heq
      have hne : c ≠ (place rows it).1 := by
        have hz2 := hz z (List.mem_cons_self z l1')
        rw [← hz1] at hz2
        exact fun hcc => hz2 (by rw [← hcc])
      have hc' : c < (place rows it).2.length := lt_of_lt_of_le hc (place_snd_length rows it)
      have hrec := ih (place rows it).2 c l1' y l2 hc' heq'
        (fun w hw => hz w (List.mem_cons_of_mem _ hw))
      rwa [place_snd_getD_other rows it c hc hne] at hrec

/-- Core invariant of first-fit on start-sorted items: in the output, whenever
an earlier entry and a later entry carry the same row index, the earlier one's
interval ends no later than the later one's starts. -/
theorem assignRowsAux_pairwise : ∀ (its : List SpanItem) (rows : List ℚ),
    its.Pairwise leStart →
    (assignRowsAux rows its).Pairwise
      (fun a b => a.2 = b.2 → a.1.endIndex ≤ b.1.startIndex) := by
  intro its
  induction its with
  | nil => intro rows _; exact List.Pairwise.nil
  | cons it its ih =>
    intro rows h
    rw [List.pairwise_cons] at h
    obtain ⟨hhead, htail⟩ := h
    show ((it, (place rows it).1) :: assignRowsAux (place rows it).2 its).Pairwise _
    refine List.Pairwise.cons ?_ (ih (place rows it).2 htail)
    rintro ⟨y, cy⟩ hy heqrow
    have hy' : (y, (place rows it).1) ∈ assignRowsAux (place rows it).2 its := by
      rwa [show cy = (place rows it).1 from heqrow.symm] at hy
    obtain ⟨la, w, lb, hdec, hla, hyw⟩ := exists_first_user _ _ _ hy'
    have hwbound : (place rows it).2.getD (place rows it).1 0 ≤ w.startIndex :=
      firstUser_bound its (place rows it).2 (place rows it).1 la w lb
        (place_fst_lt_snd rows it) hdec hla
    rw [place_snd_getD_fst] at hwbound
    rcases hyw with rfl | hylb
    · exact hwbound
    · have hfst : its = la.map Prod.fst ++ w :: lb.map Prod.fst := by
        have h0 := assignRowsAux_map_fst its (place rows it).2
        rw [hdec] at h0
        simpa using h0.symm
      have hws : leStart w y := by
        have hp : (la.map Prod.fst ++ w :: lb.map Prod.fst).Pairwise leStart := hfst ▸ htail
        rw [List.pairwise_append] at hp
        have hcons := hp.2.1
        rw [List.pairwise_cons] at hcons
        exact hcons.1 y (List.mem_map_of_mem Prod.fst hylb)
      exact le_trans hwbound hws

theorem packAux_len_mono : ∀ (its : List SpanItem) (rows : List ℚ),
    rows.length ≤ (packAux rows its).length := by
  intro its
  induction its with
  | nil => intro rows; exact le_refl _
  | cons it its ih =>
    intro rows
    exact le_trans (place_snd_length rows it) (ih (place rows it).2)

theorem assignRowsAux_row_lt : ∀ (its : List SpanItem) (rows : List ℚ) (e : SpanItem × Nat),
    e ∈ assignRowsAux rows its → e.2 < (packAux rows its).length := by
  intro its
  induction its with
  | nil => intro rows e he; simp [assignRowsAux] at he
  | cons it its ih =>
    intro rows e he
    rcases List.mem_cons.mp he with h | h
    · rw [h]
      exact lt_of_lt_of_le (place_fst_lt_snd rows it) (packAux_len_mono its (place rows it).2)
    · exact ih (place rows it).2 e h

theorem sortByStart_pairwise (items : List SpanItem) :
    (sortByStart items).Pairwise leStart :=
  List.sorted_insertionSort leStart items

theorem sortByStart_perm (items : List SpanItem) : List.Perm (sortByStart items) items :=
  List.perm_insertionSort leStart items

/-- C2: in the assignment produced by `assignItemRows`, two distinct entries
carrying the same row index never have overlapping `[startIndex, endIndex)`
intervals. -/
theorem c2_same_row_no_overlap (items : List SpanItem) (i j : Nat)
    (hi : i < (assignItemRows items).length) (hj : j < (assignItemRows items).length)
    (hne : i ≠ j)
    (hrow : ((assignItemRows items).getD i dPair).2 = ((assignItemRows items).getD j dPair).2) :
    ¬ overlaps ((assignItemRows items).getD i dPair).1
      ((assignItemRows items).getD j dPair).1 := by
  intro hov
  have hpw : (assignItemRows items).Pairwise
      (fun a b => a.2 = b.2 → a.1.endIndex ≤ b.1.startIndex) :=
    assignRowsAux_pairwise (sortByStart items) [] (sortByStart_pairwise items)
  rw [List.pairwise_iff_get] at hpw
  rw [getD_eq_get _ i dPair hi, getD_eq_get _ j dPair hj] at hrow hov
  rcases Nat.lt_or_ge i j with hij | hge
  · have hle := hpw ⟨i, hi⟩ ⟨j, hj⟩ hij hrow
    exact absurd hov.2 (not_lt_of_le hle)
  · have hij : j < i := lt_of_le_of_ne hge (fun hc => hne hc.symm)
    have hle := hpw ⟨j, hj⟩ ⟨i, hi⟩ hij hrow.symm
    exact absurd hov.1 (not_lt_of_le hle)

theorem c2_witness :
    ¬ overlaps ((assignItemRows demoSpans).getD 0 dPair).1
      ((assignItemRows demoSpans).getD 2 dPair).1 :=
  c2_same_row_no_overlap demoSpans 0 2 (by with_unfolding_all decide)
    (by with_unfolding_all decide) (by decide) (by with_unfolding_all decide)

/-! ### C3: the row count equals the maximum overlap -/

theorem le_foldl_max_init (l : List ℕ) : ∀ n : ℕ, n ≤ l.foldl max n := by
  induction l with
  | nil => intro n; exact le_refl n
  | cons x l ih => intro n; exact le_trans (le_max_left n x) (ih (max n x))

theorem le_foldl_max (l : List ℕ) : ∀ (n x : ℕ), x ∈ l → x ≤ l.foldl max n := by
  induction l with
  | nil => intro n x hx; simp at hx
  | cons y l ih =>
    intro n x hx
    rcases List.mem_cons.mp hx with h | h
    · rw [h]
      exact le_trans (le_max_right n y) (le_foldl_max_init l (max n y))
    · exact ih (max n y) x h

theorem foldl_max_le (l : List ℕ) :
    ∀ (n b : ℕ), n ≤ b → (∀ x ∈ l, x ≤ b) → l.foldl max n ≤ b := by
  induction l with
  | nil => intro n b hn _; exact hn
  | cons y l ih =>
    intro n b hn h
    exact ih (max n y) b (max_le hn (h y (List.mem_cons_self y l)))
      (fun x hx => h x (List.mem_cons_of_mem y hx))

theorem overcount_le_maxOver (items : List SpanItem) (x : SpanItem) (hx : x ∈ items) :
    overcount items x.startIndex ≤ maxOver items :=
  le_foldl_max _ 0 _ (List.mem_map_of_mem _ hx)

theorem maxOver_le (items : List SpanItem) (b : ℕ)
    (h : ∀ x ∈ items, overcount items x.startIndex ≤ b) : maxOver items ≤ b := by
  apply foldl_max_le _ 0 b (Nat.zero_le b)
  intro v hv
  obtain ⟨x, hx, rfl⟩ := List.mem_map.mp hv
  exact h x hx

theorem overcount_mono_subperm (l l2 : List SpanItem) (h : List.Subperm l l2) (p : ℚ) :
    overcount l p ≤ overcount l2 p := by
  show (l.filter (containsB p)).length ≤ (l2.filter (containsB p)).length
  rw [← List.countP_eq_length_filter, ← List.countP_eq_length_filter]
  exact h.countP_le _

theorem maxOver_mono_subperm (l l2 : List SpanItem) (h : List.Subperm l l2) :
    maxOver l ≤ maxOver l2 := by
  apply maxOver_le
  intro x hx
  exact le_trans (overcount_mono_subperm l l2 h x.startIndex)
    (overcount_le_maxOver l2 x (h.subset hx))

theorem maxOver_perm (l l2 : List SpanItem) (h : List.Perm l l2) : maxOver l = maxOver l2 :=
  le_antisymm (maxOver_mono_subperm _ _ h.subperm) (maxOver_mono_subperm _ _ h.symm.subperm)

theorem set_subperm_cons {α : Type} : ∀ (l : List α) (c : Nat) (a : α),
    List.Subperm (l.set c a) (a :: l) := by
  intro l
  induction l with
  | nil => intro c a; exact List.nil_subperm
  | cons b l ih =>
    intro c a
    cases c with
    | zero =>
      show List.Subperm (a :: l) (a :: b :: l)
      exact (List.subperm_cons a).mpr (List.Sublist.subperm (List.sublist_cons_self b l))
    | succ c =>
      show List.Subperm (b :: l.set c a) (a :: b :: l)
      have h1 : List.Subperm (b :: l.set c a) (b :: a :: l) := (List.subperm_cons b).mpr (ih c a)
      exact h1.trans (List.Perm.subperm (List.Perm.swap a b l))

/-- Upper-bound invariant of first-fit: each open row carries a witness item
(the last item placed there), whose interval still covers every future start;
when a fresh row must open at item `it`, those witnesses plus `it` all contain
the point `it.startIndex`, so the row count never exceeds the maximum overlap. -/
theorem rows_le_maxOver_aux : ∀ (its : List SpanItem) (rows : List ℚ) (wits : List SpanItem),
    its.Pairwise leStart →
    (∀ it ∈ its, it.startIndex < it.endIndex) →
    (∀ it ∈ its, ∀ w ∈ wits, w.startIndex ≤ it.startIndex) →
    wits.length = rows.length →
    (∀ c, c < rows.length → (wits.getD c dSpan).endIndex = rows.getD c 0) →
    (packAux rows its).length ≤ max rows.length (maxOver (wits ++ its)) := by
  intro its
  induction its with
  | nil =>
    intro rows wits _ _ _ _ _
    exact le_max_left _ _
  | cons it its ih =>
    intro rows wits hsort hpos hpw hlen hends
    rw [List.pairwise_cons] at hsort
    obtain ⟨hhead, htail⟩ := hsort
    have hstep : packAux rows (it :: its) = packAux (place rows it).2 its := rfl
    rw [hstep]
    rcases place_spec rows it with ⟨h1, h2, h3⟩ | ⟨h1, h2, h3⟩
    · have hlen' : (wits.set (place rows it).1 it).length = (place rows it).2.length := by
        rw [h2]
        simp [hlen]
      have hends' : ∀ c, c < (place rows it).2.length →
          ((wits.set (place rows it).1 it).getD c dSpan).endIndex
            = (place rows it).2.getD c 0 := by
        intro c hc
        have hc0 : c < rows.length := by
          rw [h2] at hc
          simpa using hc
        by_cases hcr : c = (place rows it).1
        · rw [hcr, getD_set_self wits _ it dSpan (by rw [hlen]; exact h1), h2,
            getD_set_self rows _ it.endIndex 0 h1]
        · rw [getD_set_other wits _ c it dSpan hcr, h2,
            getD_set_other rows _ c it.endIndex 0 hcr]
          exact hends c hc0
      have hpw' : ∀ x ∈ its, ∀ w ∈ wits.set (place rows it).1 it,
          w.startIndex ≤ x.startIndex := by
        intro x hx w hw
        rcases List.mem_or_eq_of_mem_set hw with h | h
        · exact hpw x (List.mem_cons_of_mem it hx) w h
        · rw [h]; exact hhead x hx
      have hres := ih (place rows it).2 (wits.set (place rows it).1 it) htail
        (fun x hx => hpos x (List.mem_cons_of_mem it hx)) hpw' hlen' hends'
      refine le_trans hres (max_le_max ?_ ?_)
      · rw [h2]
        simp
      · apply maxOver_mono_subperm
        have hsub1 : List.Subperm (wits.set (place rows it).1 it ++ its)
            ((it :: wits) ++ its) :=
          (List.subperm_append_right its).mpr (set_subperm_cons wits (place rows it).1 it)
        refine hsub1.trans (List.Perm.subperm ?_)
        show List.Perm (it :: (wits ++ its)) (wits ++ it :: its)
        exact List.perm_middle.symm
    · have hlen' : (wits ++ [it]).length = (place rows it).2.length := by
        rw [h2]
        simp [hlen]
      have hends' : ∀ c, c < (place rows it).2.length →
          ((wits ++ [it]).getD c dSpan).endIndex = (place rows it).2.getD c 0 := by
        intro c hc
        rw [h2, List.length_append, List.length_singleton] at hc
        rcases Nat.lt_or_ge c rows.length with hlt | hge
        · rw [getD_append_left wits [it] c dSpan (by rw [hlen]; exact hlt), h2,
            getD_append_left rows [it.endIndex] c 0 hlt]
          exact hends c hlt
        · have hceq : c = rows.length := by omega
          subst hceq
          have e1 : (wits ++ [it]).getD rows.length dSpan = it := by
            rw [← hlen]
            exact getD_append_len wits it dSpan
          have e2 : (rows ++ [it.endIndex]).getD rows.length 0 = it.endIndex :=
            getD_append_len rows it.endIndex 0
          rw [h2, e1, e2]
      have hpw' : ∀ x ∈ its, ∀ w ∈ wits ++ [it], w.startIndex ≤ x.startIndex := by
        intro x hx w hw
        rcases List.mem_append.mp hw with h | h
        · exact hpw x (List.mem_cons_of_mem it hx) w h
        · rw [List.mem_singleton.mp h]
          exact hhead x hx
      have hres := ih (place rows it).2 (wits ++ [it]) htail
        (fun x hx => hpos x (List.mem_cons_of_mem it hx)) hpw' hlen' hends'
      have heqlist : (wits ++ [it]) ++ its = wits ++ it :: its := by simp
      rw [heqlist] at hres
      have hwitsP : ∀ w ∈ wits, containsB it.startIndex w = true := by
        intro w hw
        obtain ⟨i, hi⟩ := List.mem_iff_get.mp hw
        have hiw : (i : Nat) < rows.length := by
          rw [← hlen]
          exact i.isLt
        have hwi : wits.getD i dSpan = w := by
          rw [getD_eq_get wits i dSpan i.isLt]
          exact hi
        have hend : w.endIndex = rows.getD i 0 := by
          rw [← hwi]
          exact hends i hiw
        have hlt : it.startIndex < w.endIndex := by
          rw [hend]
          exact h3 i hiw
        have hle : w.startIndex ≤ it.startIndex :=
          hpw it (List.mem_cons_self it its) w hw
        simp [containsB, hle, hlt]
      have hitP : containsB it.startIndex it = true := by
        have := hpos it (List.mem_cons_self it its)
        simp [containsB, this]
      have hcount : rows.length + 1 ≤ overcount (wits ++ it :: its) it.startIndex := by
        show _ ≤ ((wits ++ it :: its).filter (containsB it.startIndex)).length
        rw [List.filter_append, List.filter_cons_of_pos hitP, List.length_append,
          List.filter_eq_self.mpr hwitsP, List.length_cons, hlen]
        omega
      have hover : rows.length + 1 ≤ maxOver (wits ++ it :: its) := by
        refine le_trans hcount (le_foldl_max _ 0 _ ?_)
        exact List.mem_map_of_mem _ (List.mem_append.mpr (Or.inr (List.mem_cons_self it its)))
      refine le_trans hres ?_
      rw [h2, List.length_append, List.length_singleton]
      exact max_le (le_trans hover (le_max_right _ _)) (le_max_right _ _)

theorem rows_le_maxOver (items : List SpanItem)
    (hpos : ∀ it ∈ items, it.startIndex < it.endIndex) :
    (packAux [] (sortByStart items)).length ≤ maxOver items := by
  have h := rows_le_maxOver_aux (sortByStart items) [] [] (sortByStart_pairwise items)
    (fun it hit => hpos it ((sortByStart_perm items).mem_iff.mp hit))
    (by intro it _ w hw; simp at hw) rfl (by intro c hc; simp at hc)
  rw [List.nil_append] at h
  simpa [maxOver_perm _ _ (sortByStart_perm items)] using h

theorem nodup_lt_length_le (l : List ℕ) (R : ℕ) (hn : l.Nodup) (hb : ∀ x ∈ l, x < R) :
    l.length ≤ R := by
  have h1 : l.toFinset.card = l.length := List.toFinset_card_of_nodup hn
  have h2 : l.toFinset ⊆ Finset.range R := by
    intro x hx
    rw [List.mem_toFinset] at hx
    rw [Finset.mem_range]
    exact hb x hx
  calc l.length = l.toFinset.card := h1.symm
    _ ≤ (Finset.range R).card := Finset.card_le_card h2
    _ = R := Finset.card_range R

theorem overcount_le_rows (items : List SpanItem) (p : ℚ) :
    overcount items p ≤ (packAux [] (sortByStart items)).length := by
  have hperm : overcount items p = overcount (sortByStart items) p := by
    show (items.filter _).length = ((sortByStart items).filter _).length
    rw [← List.countP_eq_length_filter, ← List.countP_eq_length_filter]
    exact ((sortByStart_perm items).countP_eq _).symm
  rw [hperm]
  have hmapA : (assignRowsAux [] (sortByStart items)).map Prod.fst = sortByStart items :=
    assignRowsAux_map_fst (sortByStart items) []
  have hfilter : (sortByStart items).filter (containsB p)
      = ((assignRowsAux [] (sortByStart items)).filter
          (fun e => containsB p e.1)).map Prod.fst := by
    conv_lhs => rw [← hmapA]
    rw [List.filter_map]
    rfl
  show ((sortByStart items).filter (containsB p)).length ≤ _
  rw [hfilter, List.length_map]
  have hpairF : ((assignRowsAux [] (sortByStart items)).filter
      (fun e => containsB p e.1)).Pairwise
      (fun a b => a.2 = b.2 → a.1.endIndex ≤ b.1.startIndex) :=
    List.Pairwise.sublist (List.filter_sublist _)
      (assignRowsAux_pairwise (sortByStart items) [] (sortByStart_pairwise items))
  have hmemP : ∀ e ∈ (assignRowsAux [] (sortByStart items)).filter
      (fun e => containsB p e.1), containsB p e.1 = true := by
    intro e he
    exact (List.mem_filter.mp he).2
  have hneq : ((assignRowsAux [] (sortByStart items)).filter
      (fun e => containsB p e.1)).Pairwise (fun a b => a.2 ≠ b.2) := by
    refine List.Pairwise.imp_of_mem ?_ hpairF
    intro a b ha hb hrel hcontra
    have hle := hrel hcontra
    have hpa := hmemP a ha
    have hpb := hmemP b hb
    simp only [containsB, Bool.and_eq_true, decide_eq_true_eq] at hpa hpb
    exact absurd (lt_of_lt_of_le hpa.2 (le_trans hle hpb.1)) (lt_irrefl p)
  have hnodup : (((assignRowsAux [] (sortByStart items)).filter
      (fun e => containsB p e.1)).map Prod.snd).Nodup := by
    rw [List.Nodup, List.pairwise_map]
    exact hneq
  have hbound : ∀ x ∈ ((assignRowsAux [] (sortByStart items)).filter
      (fun e => containsB p e.1)).map Prod.snd,
      x < (packAux [] (sortByStart items)).length := by
    intro x hx
    obtain ⟨e, he, rfl⟩ := List.mem_map.mp hx
    exact assignRowsAux_row_lt (sortByStart items) [] e (List.mem_filter.mp he).1
  have hfin := nodup_lt_length_le _ _ hnodup hbound
  rwa [List.length_map] at hfin

theorem maxOver_le_rows (items : List SpanItem) :
    maxOver items ≤ (packAux [] (sortByStart items)).length := by
  apply maxOver_le
  intro x _
  exact overcount_le_rows items x.startIndex

theorem calculateItemRows_eq_max (items : List SpanItem) :
    calculateItemRows items = max 1 (packAux [] (sortByStart items)).length := by
  unfold calculateItemRows
  by_cases h : items.isEmpty
  · rw [if_pos h]
    have hnil : items = [] := by
      cases items with
      | nil => rfl
      | cons a l => simp [List.isEmpty] at h
    subst hnil
    rfl
  · rw [if_neg h]
    exact Nat.max_comm _ _

theorem exists_max_start : ∀ (l : List SpanItem), l ≠ [] →
    ∃ w ∈ l, ∀ x ∈ l, x.startIndex ≤ w.startIndex := by
  intro l
  induction l with
  | nil => intro h; exact absurd rfl h
  | cons a l ih =>
    intro _
    by_cases hl : l = []
    · subst hl
      refine ⟨a, List.mem_cons_self a [], ?_⟩
      intro x hx
      rw [List.mem_singleton.mp hx]
    · obtain ⟨w, hw, hmax⟩ := ih hl
      rcases le_total a.startIndex w.startIndex with h | h
      · refine ⟨w, List.mem_cons_of_mem a hw, ?_⟩
        intro x hx
        rcases List.mem_cons.mp hx with rfl | hx2
        · exact h
        · exact hmax x hx2
      · refine ⟨a, List.mem_cons_self a l, ?_⟩
        intro x hx
        rcases List.mem_cons.mp hx with rfl | hx2
        · exact le_refl _
        · exact le_trans (hmax x hx2) h

theorem overcount_le_maxOver_all (items : List SpanItem) (p : ℚ) :
    overcount items p ≤ maxOver items := by
  by_cases hS : items.filter (containsB p) = []
  · show (items.filter (containsB p)).length ≤ _
    rw [hS]
    exact Nat.zero_le _
  · obtain ⟨w, hwS, hmax⟩ := exists_max_start (items.filter (containsB p)) hS
    have hw_items : w ∈ items := (List.mem_filter.mp hwS).1
    have hwP := (List.mem_filter.mp hwS).2
    simp only [containsB, Bool.and_eq_true, decide_eq_true_eq] at hwP
    have hmono : overcount items p ≤ overcount items w.startIndex := by
      show (items.filter (containsB p)).length ≤ (items.filter (containsB w.startIndex)).length
      rw [← List.countP_eq_length_filter, ← List.countP_eq_length_filter]
      apply List.countP_mono_left
      intro x hx hxP
      have hxS : x ∈ items.filter (containsB p) := List.mem_filter.mpr ⟨hx, hxP⟩
      have hxle : x.startIndex ≤ w.startIndex := hmax x hxS
      simp only [containsB, Bool.and_eq_true, decide_eq_true_eq] at hxP ⊢
      exact ⟨hxle, lt_of_le_of_lt hwP.1 hxP.2⟩
    exact le_trans hmono (overcount_le_maxOver items w hw_items)

/-- C3 (amended): for items with positive-width intervals, the row count of
`calculateItemRows` equals `max 1 (maximum overlap)`: for a non-empty list the
row count is exactly the maximum number of items simultaneously active at any
single timeline point (attained at an item start — second conjunct), and for
the empty list the function floors the count at 1 while the maximum overlap is
0, which is why the unqualified claim fails (see the counterexample). -/
theorem c3_rows_eq_max_overlap (items : List SpanItem)
    (hpos : ∀ it ∈ items, it.startIndex < it.endIndex) :
    calculateItemRows items = max 1 (maxOver items) ∧
    ∀ p : ℚ, overcount items p ≤ maxOver items := by
  constructor
  · rw [calculateItemRows_eq_max]
    have heq : (packAux [] (sortByStart items)).length = maxOver items :=
      le_antisymm (rows_le_maxOver items hpos) (maxOver_le_rows items)
    rw [heq]
  · intro p
    exact overcount_le_maxOver_all items p

theorem c3_witness :
    calculateItemRows demoSpans = max 1 (maxOver demoSpans) ∧
    ∀ p : ℚ, overcount demoSpans p ≤ maxOver demoSpans :=
  c3_rows_eq_max_overlap demoSpans (by with_unfolding_all decide)
